import Mathlib

/-!
Shallow embedding of `src/debug_vis.rs`, a Bevy debug-visualization overlay.

Floating-point (`f64` / `f32`) arithmetic is modelled exactly over `ℚ`;
machine integers (the `u64` frame counter, which the source advances with
`wrapping_add`) are `Nat` reduced modulo `2 ^ 64` where the source wraps.
Engine-side effects are modelled as explicit state: spawned text entities are
numbered by a fresh-id counter, text / visibility components live on the
registry entries, a despawn is recorded by returning the despawned ids, and
the camera projection (`viewport_to_world` followed by `Ray3d::get_point`) is
an abstract function from screen coordinates to an optional world point.
-/

namespace DebugVis

/-- `FRAME_DELTA_WINDOW` from the source: capacity of the frame-time window. -/
def FRAME_DELTA_WINDOW : Nat := 300

/-- `FPS_AVG_WINDOW_SECONDS` from the source: FPS sampling budget in seconds. -/
def FPS_AVG_WINDOW_SECONDS : ℚ := 0.25

/-- `u64` modulus, for the source's `wrapping_add` on the frame counter. -/
def U64_MOD : Nat := 2 ^ 64

/-- `FrameTimeHistory` resource: recent frame times in milliseconds, oldest
first (`VecDeque` front = head), plus a running sum in seconds. -/
structure FrameTimeHistory where
  frame_times_ms : List ℚ
  sum_seconds : ℚ
deriving DecidableEq

/-- `#[derive(Default)]`: the startup history is empty with zero sum. -/
def FrameTimeHistory.init : FrameTimeHistory := ⟨[], 0⟩

/-- One step of `update_frame_time_history` when the diagnostics feed yields a
smoothed sample (when it yields none the system returns without touching the
history): `push_back` the sample, add `sample / 1000` to the running sum, and
if the window now exceeds `FRAME_DELTA_WINDOW`, `pop_front` the oldest sample
and subtract its contribution. -/
def FrameTimeHistory.record (h : FrameTimeHistory) (frame_time_ms : ℚ) : FrameTimeHistory :=
  let frame_times := h.frame_times_ms ++ [frame_time_ms]
  let sum := h.sum_seconds + frame_time_ms / 1000
  if FRAME_DELTA_WINDOW < frame_times.length then
    match frame_times with
    | [] => ⟨[], sum⟩
    | removed :: rest => ⟨rest, sum - removed / 1000⟩
  else
    ⟨frame_times, sum⟩

/-- Recording a whole sequence of diagnostics samples, oldest first, starting
from the startup (empty) history. -/
def recordAll (xs : List ℚ) : FrameTimeHistory :=
  xs.foldl FrameTimeHistory.record FrameTimeHistory.init

/-- History invariant: window within capacity, running sum consistent. -/
def HistoryInv (h : FrameTimeHistory) : Prop :=
  h.frame_times_ms.length ≤ FRAME_DELTA_WINDOW ∧
  h.sum_seconds = h.frame_times_ms.sum / 1000

lemma historyInv_init : HistoryInv FrameTimeHistory.init := by
  constructor <;> simp [FrameTimeHistory.init, FRAME_DELTA_WINDOW]

lemma record_eq_of_small (h : FrameTimeHistory) (x : ℚ)
    (hlt : h.frame_times_ms.length + 1 ≤ FRAME_DELTA_WINDOW) :
    h.record x = ⟨h.frame_times_ms ++ [x], h.sum_seconds + x / 1000⟩ := by
  have hnot : ¬ FRAME_DELTA_WINDOW < (h.frame_times_ms ++ [x]).length := by
    simp only [List.length_append, List.length_singleton]
    omega
  simp only [FrameTimeHistory.record]
  rw [if_neg hnot]

lemma record_eq_of_full (h : FrameTimeHistory) (x a : ℚ) (t : List ℚ)
    (hl : h.frame_times_ms = a :: t)
    (hlen : FRAME_DELTA_WINDOW ≤ t.length + 1) :
    h.record x = ⟨t ++ [x], h.sum_seconds + x / 1000 - a / 1000⟩ := by
  have hcond : FRAME_DELTA_WINDOW < (h.frame_times_ms ++ [x]).length := by
    rw [hl]
    simp only [List.cons_append, List.length_cons, List.length_append,
      List.length_singleton]
    omega
  simp only [FrameTimeHistory.record]
  rw [if_pos hcond, hl, List.cons_append]

lemma historyInv_record {h : FrameTimeHistory} (hi : HistoryInv h) (x : ℚ) :
    HistoryInv (h.record x) := by
  obtain ⟨hlen, hsum⟩ := hi
  by_cases hsmall : h.frame_times_ms.length + 1 ≤ FRAME_DELTA_WINDOW
  · rw [record_eq_of_small h x hsmall]
    refine ⟨by simpa using hsmall, ?_⟩
    simp only [List.sum_append, List.sum_cons, List.sum_nil, add_zero]
    rw [hsum]
    ring
  · -- the window is exactly full, so the oldest entry is evicted
    have hfull : h.frame_times_ms.length = FRAME_DELTA_WINDOW := by omega
    have hne : h.frame_times_ms ≠ [] := by
      intro hnil
      rw [hnil] at hfull
      simp [FRAME_DELTA_WINDOW] at hfull
    obtain ⟨a, t, hl⟩ := List.exists_cons_of_ne_nil hne
    have hlen' : FRAME_DELTA_WINDOW ≤ t.length + 1 := by
      rw [hl] at hfull
      simp only [List.length_cons] at hfull
      omega
    rw [record_eq_of_full h x a t hl hlen']
    constructor
    · simp only [List.length_append, List.length_singleton]
      rw [hl] at hfull
      simp only [List.length_cons] at hfull
      omega
    · simp only [List.sum_append, List.sum_cons, List.sum_nil, add_zero]
      rw [hsum, hl]
      simp only [List.sum_cons]
      ring

lemma historyInv_recordAll (xs : List ℚ) : HistoryInv (recordAll xs) := by
  have main : ∀ (l : List ℚ) (h : FrameTimeHistory), HistoryInv h →
      HistoryInv (l.foldl FrameTimeHistory.record h) := by
    intro l
    induction l with
    | nil => intro h hi; simpa using hi
    | cons y ys ih =>
        intro h hi
        exact ih _ (historyInv_record hi y)
  exact main xs _ historyInv_init

/-- C1: for every sequence of recorded samples the window length never exceeds
`FRAME_DELTA_WINDOW = 300` and the running sum equals the sum of the retained
entries divided by 1000 (exactly, in the `ℚ` model of the `f64` arithmetic,
hence within floating-point tolerance); and on overflow — a record hitting a
full window — exactly the oldest entry is evicted and its contribution
subtracted from the sum while the new sample is appended. -/
theorem c1_history_window_and_sum (xs : List ℚ) (h : FrameTimeHistory) (x : ℚ)
    (hfull : h.frame_times_ms.length = FRAME_DELTA_WINDOW) :
    ((recordAll xs).frame_times_ms.length ≤ FRAME_DELTA_WINDOW ∧
      (recordAll xs).sum_seconds = (recordAll xs).frame_times_ms.sum / 1000) ∧
    ((h.record x).frame_times_ms = h.frame_times_ms.tail ++ [x] ∧
      (h.record x).sum_seconds
        = h.sum_seconds + x / 1000 - h.frame_times_ms.headI / 1000) := by
  refine ⟨historyInv_recordAll xs, ?_⟩
  have hne : h.frame_times_ms ≠ [] := by
    intro hnil
    rw [hnil] at hfull
    simp [FRAME_DELTA_WINDOW] at hfull
  obtain ⟨a, t, hl⟩ := List.exists_cons_of_ne_nil hne
  have hlen' : FRAME_DELTA_WINDOW ≤ t.length + 1 := by
    rw [hl] at hfull
    simp only [List.length_cons] at hfull
    omega
  rw [record_eq_of_full h x a t hl hlen', hl]
  simp

set_option maxRecDepth 4000 in
/-- Concrete instantiation of `c1_history_window_and_sum` at a full window of
300 sixteen-millisecond samples and the sample stream `[16, 33]`. -/
theorem c1_history_window_and_sum_witness :
    ((⟨List.replicate 300 16, 24 / 5⟩ : FrameTimeHistory).frame_times_ms.length
        = FRAME_DELTA_WINDOW) ∧
    (((recordAll [16, 33]).frame_times_ms.length ≤ FRAME_DELTA_WINDOW ∧
        (recordAll [16, 33]).sum_seconds
          = (recordAll [16, 33]).frame_times_ms.sum / 1000) ∧
      (((⟨List.replicate 300 16, 24 / 5⟩ : FrameTimeHistory).record 20).frame_times_ms
          = (⟨List.replicate 300 16, 24 / 5⟩ : FrameTimeHistory).frame_times_ms.tail ++ [20] ∧
        ((⟨List.replicate 300 16, 24 / 5⟩ : FrameTimeHistory).record 20).sum_seconds
          = (⟨List.replicate 300 16, 24 / 5⟩ : FrameTimeHistory).sum_seconds + 20 / 1000
            - (⟨List.replicate 300 16, 24 / 5⟩ : FrameTimeHistory).frame_times_ms.headI / 1000)) :=
  ⟨by simp [FRAME_DELTA_WINDOW],
    c1_history_window_and_sum [16, 33] ⟨List.replicate 300 16, 24 / 5⟩ 20
      (by simp [FRAME_DELTA_WINDOW])⟩

/-- `DebugLevel` resource; the derived `Default` is `Full` (and the toggle
system that would change it is commented out in this build). -/
inductive DebugLevel
  | Hidden
  | FpsOnly
  | Full
deriving DecidableEq

/-- The sampling loop of `update_fps_display`: walk the window newest first
(as produced by `.iter().rev()`), adding each sample to `window_seconds` and
counting frames, and stop as soon as the accumulated time reaches the budget
`FPS_AVG_WINDOW_SECONDS`. -/
def fps_walk : ℚ → Nat → List ℚ → ℚ × Nat
  | window_seconds, frames, [] => (window_seconds, frames)
  | window_seconds, frames, frame_time_ms :: rest =>
      let ws := window_seconds + frame_time_ms / 1000
      if FPS_AVG_WINDOW_SECONDS ≤ ws then (ws, frames + 1)
      else fps_walk ws (frames + 1) rest

/-- `update_fps_display` on the FPS text state: `none` models the `"FPS: --"`
placeholder and `some r` a numeric rate `r`.  The system returns early at
level `Hidden`; otherwise it runs the backward walk and overwrites the text
with `frames / window_seconds` whenever the accumulated time is positive. -/
def update_fps_display (level : DebugLevel) (h : FrameTimeHistory) (text : Option ℚ) :
    Option ℚ :=
  if level = DebugLevel.Hidden then text
  else
    let w := fps_walk 0 0 h.frame_times_ms.reverse
    if 0 < w.1 then some ((w.2 : ℚ) / w.1) else text

lemma fps_walk_spec (l : List ℚ) (acc : ℚ) (n : Nat) :
    n ≤ (fps_walk acc n l).2 ∧
    (fps_walk acc n l).2 - n ≤ l.length ∧
    (fps_walk acc n l).1 = acc + (l.take ((fps_walk acc n l).2 - n)).sum / 1000 ∧
    (FPS_AVG_WINDOW_SECONDS ≤ (fps_walk acc n l).1 ∨
      (fps_walk acc n l).2 - n = l.length) := by
  induction l generalizing acc n with
  | nil => simp [fps_walk]
  | cons ft rest ih =>
      simp only [fps_walk]
      by_cases hb : FPS_AVG_WINDOW_SECONDS ≤ acc + ft / 1000
      · rw [if_pos hb]
        refine ⟨by omega, by simp, ?_, Or.inl hb⟩
        simp
      · rw [if_neg hb]
        obtain ⟨h1, h2, h3, h4⟩ := ih (acc + ft / 1000) (n + 1)
        have hk : (fps_walk (acc + ft / 1000) (n + 1) rest).2 - n
            = ((fps_walk (acc + ft / 1000) (n + 1) rest).2 - (n + 1)) + 1 := by omega
        refine ⟨by omega, ?_, ?_, ?_⟩
        · simp only [List.length_cons]
          omega
        · rw [hk, List.take_succ_cons, List.sum_cons, h3]
          ring
        · rcases h4 with h4 | h4
          · exact Or.inl h4
          · right
            simp only [List.length_cons]
            omega

/-- C4 counterexample: with a single 16 ms sample the backward walk
accumulates only 0.016 s, strictly below the 0.25 s budget, yet
`update_fps_display` replaces the placeholder with a rate (62.5), where the
claim says the text must still be unset. -/
theorem c4_fps_budget_counterexample :
    (fps_walk 0 0 ((⟨[16], 16 / 1000⟩ : FrameTimeHistory).frame_times_ms.reverse)).1
        < FPS_AVG_WINDOW_SECONDS ∧
    update_fps_display DebugLevel.Full ⟨[16], 16 / 1000⟩ none ≠ none ∧
    update_fps_display DebugLevel.Full ⟨[16], 16 / 1000⟩ none = some (125 / 2) := by
  refine ⟨?_, ?_, ?_⟩ <;>
    norm_num [update_fps_display, fps_walk, FPS_AVG_WINDOW_SECONDS] <;>
    decide

/-- C4 (amended): the FPS text is left unset only while the backward walk
accumulates no positive elapsed time (in particular for an empty window); as
soon as the accumulated elapsed time is positive — even strictly below the
0.25 s budget — the text shows `frames / elapsed`, where the walk consumes
the most recent samples until the budget is met or the window is exhausted. -/
theorem c4_fps_display_amended (level : DebugLevel) (h : FrameTimeHistory) (text : Option ℚ)
    (hlvl : level ≠ DebugLevel.Hidden) :
    ((fps_walk 0 0 h.frame_times_ms.reverse).1 ≤ 0 →
      update_fps_display level h text = text) ∧
    (0 < (fps_walk 0 0 h.frame_times_ms.reverse).1 →
      update_fps_display level h text
        = some (((fps_walk 0 0 h.frame_times_ms.reverse).2 : ℚ)
            / (fps_walk 0 0 h.frame_times_ms.reverse).1)) ∧
    (fps_walk 0 0 h.frame_times_ms.reverse).2 ≤ h.frame_times_ms.length ∧
    (fps_walk 0 0 h.frame_times_ms.reverse).1
      = (h.frame_times_ms.reverse.take (fps_walk 0 0 h.frame_times_ms.reverse).2).sum
          / 1000 ∧
    (FPS_AVG_WINDOW_SECONDS ≤ (fps_walk 0 0 h.frame_times_ms.reverse).1 ∨
      (fps_walk 0 0 h.frame_times_ms.reverse).2 = h.frame_times_ms.length) := by
  obtain ⟨h1, h2, h3, h4⟩ := fps_walk_spec h.frame_times_ms.reverse 0 0
  simp only [Nat.sub_zero, List.length_reverse] at h2 h3 h4
  refine ⟨?_, ?_, h2, by simpa using h3, h4⟩
  · intro hle
    rw [update_fps_display, if_neg hlvl]
    simp only []
    rw [if_neg (by exact not_lt.mpr hle)]
  · intro hpos
    rw [update_fps_display, if_neg hlvl]
    simp only []
    rw [if_pos hpos]

/-- Concrete instantiation of `c4_fps_display_amended` at a one-sample
window. -/
theorem c4_fps_display_amended_witness :
    DebugLevel.Full ≠ DebugLevel.Hidden ∧
    0 < (fps_walk 0 0 ((⟨[16], 16 / 1000⟩ : FrameTimeHistory).frame_times_ms.reverse)).1 ∧
    update_fps_display DebugLevel.Full ⟨[16], 16 / 1000⟩ none
      = some (((fps_walk 0 0 ((⟨[16], 16 / 1000⟩ : FrameTimeHistory).frame_times_ms.reverse)).2 : ℚ)
          / (fps_walk 0 0 ((⟨[16], 16 / 1000⟩ : FrameTimeHistory).frame_times_ms.reverse)).1) := by
  refine ⟨by decide, by norm_num [fps_walk, FPS_AVG_WINDOW_SECONDS], ?_⟩
  exact (c4_fps_display_amended DebugLevel.Full ⟨[16], 16 / 1000⟩ none (by decide)).2.1
    (by norm_num [fps_walk, FPS_AVG_WINDOW_SECONDS])

/-- `update_frametime_consistency_display` on the displayed values: the pair
`(average, max)` shown by the two stat lines, `none` standing for the two
`"--"` placeholder labels.  The system returns early (labels untouched) when
the level is not `Full`; on an empty window it writes the placeholders,
otherwise the running-sum mean and the `f64::max` fold of the window. -/
def update_frametime_consistency_display (level : DebugLevel) (h : FrameTimeHistory)
    (labels : Option (ℚ × ℚ)) : Option (ℚ × ℚ) :=
  if level ≠ DebugLevel.Full then labels
  else if h.frame_times_ms.isEmpty then none
  else some ((h.sum_seconds * 1000) / (h.frame_times_ms.length : ℚ),
    h.frame_times_ms.foldl max 0)

/-- `{:.2}` formatting of a displayed statistic, modelled as the integer
number of hundredths it prints (two decimal places). -/
def fmt2 (q : ℚ) : ℤ := round (q * 100)

lemma foldl_max_le (l : List ℚ) (a : ℚ) :
    a ≤ l.foldl max a ∧ ∀ x ∈ l, x ≤ l.foldl max a := by
  induction l generalizing a with
  | nil => simp
  | cons y ys ih =>
      obtain ⟨ha, hall⟩ := ih (max a y)
      refine ⟨le_trans (le_max_left a y) ha, ?_⟩
      intro x hx
      rcases List.mem_cons.mp hx with rfl | hx'
      · exact le_trans (le_max_right a x) ha
      · exact hall x hx'

lemma foldl_max_mem (l : List ℚ) (a : ℚ) : l.foldl max a = a ∨ l.foldl max a ∈ l := by
  induction l generalizing a with
  | nil => simp
  | cons y ys ih =>
      simp only [List.foldl_cons]
      rcases ih (max a y) with h | h
      · rcases le_total a y with hay | hya
        · right
          rw [h, max_eq_right hay]
          exact List.mem_cons_self y ys
        · left
          rw [h, max_eq_left hya]
      · right
        exact List.mem_cons_of_mem y h

/-- C8: for a non-empty window (of nonnegative frame durations, as delivered
by the diagnostics feed) the displayed average equals the running-sum-derived
mean `sum_seconds * 1000 / count` and the displayed max is the maximum of the
window; for an empty window both lines show the placeholder; and the concrete
example `[16, 16, 16, 33]` displays average `20.25` and max `33.0`, i.e.
`2025` and `3300` hundredths under `{:.2}` formatting. -/
theorem c8_consistency_display (h : FrameTimeHistory) (labels labels' : Option (ℚ × ℚ))
    (s : ℚ) (hne : h.frame_times_ms ≠ [])
    (hnonneg : ∀ x ∈ h.frame_times_ms, 0 ≤ x) :
    (∃ avg mx,
      update_frametime_consistency_display DebugLevel.Full h labels = some (avg, mx) ∧
      avg = h.sum_seconds * 1000 / (h.frame_times_ms.length : ℚ) ∧
      mx ∈ h.frame_times_ms ∧ (∀ x ∈ h.frame_times_ms, x ≤ mx)) ∧
    update_frametime_consistency_display DebugLevel.Full ⟨[], s⟩ labels' = none ∧
    update_frametime_consistency_display DebugLevel.Full (recordAll [16, 16, 16, 33]) none
      = some (81 / 4, 33) ∧
    fmt2 (81 / 4) = 2025 ∧ fmt2 33 = 3300 := by
  refine ⟨?_, by simp [update_frametime_consistency_display],
    by norm_num [update_frametime_consistency_display, recordAll, FrameTimeHistory.record,
      FrameTimeHistory.init, FRAME_DELTA_WINDOW, max_def],
    by rw [fmt2]; norm_num [round_eq], by rw [fmt2]; norm_num [round_eq]⟩
  refine ⟨h.sum_seconds * 1000 / (h.frame_times_ms.length : ℚ), h.frame_times_ms.foldl max 0,
    ?_, rfl, ?_, (foldl_max_le h.frame_times_ms 0).2⟩
  · rw [update_frametime_consistency_display, if_neg (by simp), if_neg (by simpa using hne)]
  · rcases foldl_max_mem h.frame_times_ms 0 with h0 | hm
    · obtain ⟨y, t, hl⟩ := List.exists_cons_of_ne_nil hne
      have hy0 : y = 0 := by
        have hle : y ≤ 0 := by
          have := (foldl_max_le h.frame_times_ms 0).2 y (by rw [hl]; exact List.mem_cons_self y t)
          rw [h0] at this
          exact this
        have hge : 0 ≤ y := hnonneg y (by rw [hl]; exact List.mem_cons_self y t)
        exact le_antisymm hle hge
      rw [h0, hl, ← hy0]
      exact List.mem_cons_self y t
    · exact hm

/-- Concrete instantiation of `c8_consistency_display` at the window
`[16, 16, 16, 33]`. -/
theorem c8_consistency_display_witness :
    ((⟨[16, 16, 16, 33], 81 / 1000⟩ : FrameTimeHistory).frame_times_ms ≠ [] ∧
      ∀ x ∈ (⟨[16, 16, 16, 33], 81 / 1000⟩ : FrameTimeHistory).frame_times_ms, (0 : ℚ) ≤ x) ∧
    ((∃ avg mx,
      update_frametime_consistency_display DebugLevel.Full
          ⟨[16, 16, 16, 33], 81 / 1000⟩ none = some (avg, mx) ∧
      avg = (⟨[16, 16, 16, 33], 81 / 1000⟩ : FrameTimeHistory).sum_seconds * 1000
          / ((⟨[16, 16, 16, 33], 81 / 1000⟩ : FrameTimeHistory).frame_times_ms.length : ℚ) ∧
      mx ∈ (⟨[16, 16, 16, 33], 81 / 1000⟩ : FrameTimeHistory).frame_times_ms ∧
      (∀ x ∈ (⟨[16, 16, 16, 33], 81 / 1000⟩ : FrameTimeHistory).frame_times_ms, x ≤ mx)) ∧
    update_frametime_consistency_display DebugLevel.Full ⟨[], (0 : ℚ)⟩ none = none ∧
    update_frametime_consistency_display DebugLevel.Full (recordAll [16, 16, 16, 33]) none
      = some (81 / 4, 33) ∧
    fmt2 (81 / 4) = 2025 ∧ fmt2 33 = 3300) :=
  ⟨⟨by decide, by decide⟩,
    c8_consistency_display ⟨[16, 16, 16, 33], 81 / 1000⟩ none none 0 (by decide) (by decide)⟩

/-- One on-screen debug text line: the source's `DebugEntry` plus the text and
visibility components of its spawned entity (which the source keeps on the
entity itself, addressed through `entry.entity`). -/
structure DebugEntry where
  entity : Nat
  line : Nat
  last_frame : Nat
  persistent : Bool
  text : String
  visible : Bool
deriving DecidableEq

/-- The `DebugTexts` registry resource.  Both `HashMap`s are modelled as
association lists looked up by key; reachable states keep their keys
pairwise distinct, matching the map semantics. -/
structure DebugTexts where
  frame : Nat
  next_line : Nat
  line_lookup : List (String × Nat)
  entries : List (String × DebugEntry)
deriving DecidableEq

/-- `#[derive(Default)]`: frame 0, no slots, no entries. -/
def DebugTexts.init : DebugTexts := ⟨0, 0, [], []⟩

/-- Association-list lookup, modelling `HashMap::get`. -/
def alookup {α : Type} (key : String) : List (String × α) → Option α
  | [] => none
  | p :: rest => if p.1 = key then some p.2 else alookup key rest

/-- Association-list in-place mutation of one key's value, modelling
`HashMap::get_mut` followed by field updates. -/
def aupdate {α : Type} (key : String) (f : α → α) : List (String × α) → List (String × α)
  | [] => []
  | p :: rest => if p.1 = key then (p.1, f p.2) :: rest else p :: aupdate key f rest

/-- `DebugTextWriter::write_with_persistence`.  The writer state is the
registry paired with the `Commands` fresh-entity counter; the `level`
resource picks the initial visibility of a newly spawned line.  An existing
entry has its text replaced, its last-touched frame refreshed and the
persistence flag OR-ed in; otherwise a slot is taken from `line_lookup` (or
freshly allocated and recorded there), a text entity is spawned and a new
entry registered.  `refreshEntry` is the in-place mutation applied to an
existing entry. -/
def refreshEntry (frame : Nat) (message : String) (persistent : Bool)
    (e : DebugEntry) : DebugEntry :=
  { e with text := message, last_frame := frame,
           persistent := e.persistent || persistent }

def write_with_persistence (level : DebugLevel) (st : DebugTexts × Nat)
    (key message : String) (persistent : Bool) : DebugTexts × Nat :=
  let t := st.1
  match alookup key t.entries with
  | some _ =>
      ({ t with entries := aupdate key (refreshEntry t.frame message persistent) t.entries },
        st.2)
  | none =>
      let lineState : Nat × DebugTexts :=
        match alookup key t.line_lookup with
        | some line => (line, t)
        | none => (t.next_line,
            { t with next_line := t.next_line + 1,
                     line_lookup := t.line_lookup ++ [(key, t.next_line)] })
      let entry : DebugEntry :=
        { entity := st.2, line := lineState.1, last_frame := t.frame,
          persistent := persistent, text := message,
          visible := decide (level = DebugLevel.Full) }
      ({ lineState.2 with entries := lineState.2.entries ++ [(key, entry)] }, st.2 + 1)

/-- `DebugTextWriter::write`: `write_with_persistence` with `persistent =
false`. -/
def write (level : DebugLevel) (st : DebugTexts × Nat) (key message : String) :
    DebugTexts × Nat :=
  write_with_persistence level st key message false

/-- `cleanup_stale_debug_texts`: advance the `u64` frame counter with
`wrapping_add`, then despawn and drop every non-persistent entry whose
last-touched frame is more than one frame behind the new counter.  Returns
the new registry together with the despawned entity ids. -/
def cleanup_stale_debug_texts (t : DebugTexts) : DebugTexts × List Nat :=
  let frame := (t.frame + 1) % U64_MOD
  let stale := t.entries.filter
    (fun p => !p.2.persistent && decide ((p.2.last_frame + 1) % U64_MOD < frame))
  let to_remove := stale.map Prod.fst
  ({ t with frame := frame,
            entries := t.entries.filter (fun p => !(decide (p.1 ∈ to_remove))) },
    stale.map (fun p => p.2.entity))

/-- `DebugRequest`: one queued debug-text submission. -/
structure DebugRequest where
  key : String
  message : String
  persistent : Bool
deriving DecidableEq

/-- `enqueue_request`: push under the queue mutex; when the lock cannot be
acquired (`lock_ok = false`, a poisoned mutex) the request is silently
dropped. -/
def enqueue_request (lock_ok : Bool) (queue : List DebugRequest) (req : DebugRequest) :
    List DebugRequest :=
  if lock_ok then queue ++ [req] else queue

/-- Enqueueing a whole list of requests in submission order, each push
acquiring the lock successfully. -/
def enqueue_all (reqs : List DebugRequest) (queue : List DebugRequest) :
    List DebugRequest :=
  reqs.foldl (enqueue_request true) queue

/-- `drain_debug_queue`.  The global `OnceLock` holds `none` while no enqueue
has ever initialized the queue (the system then returns directly); otherwise
the source calls `.lock().unwrap()`: a failed (poisoned) lock acquisition
panics, modelled as `Except.error ()`; on success the queue is drained
(emptied) and every request replayed through `write_with_persistence` in
submission order. -/
def drain_debug_queue (level : DebugLevel) (queue : Option (List DebugRequest))
    (lock_ok : Bool) (st : DebugTexts × Nat) :
    Except Unit ((DebugTexts × Nat) × Option (List DebugRequest)) :=
  match queue with
  | none => .ok (st, none)
  | some reqs =>
      if lock_ok then
        .ok (reqs.foldl
          (fun s r => write_with_persistence level s r.key r.message r.persistent) st,
          some [])
      else .error ()

lemma alookup_eq_none {α : Type} {key : String} {l : List (String × α)} :
    alookup key l = none ↔ ∀ p ∈ l, p.1 ≠ key := by
  induction l with
  | nil => simp [alookup]
  | cons p rest ih =>
      by_cases hp : p.1 = key
      · simp [alookup, hp]
      · simp [alookup, hp, ih]

lemma alookup_mem {α : Type} {key : String} {v : α} {l : List (String × α)}
    (h : alookup key l = some v) : (key, v) ∈ l := by
  induction l with
  | nil => simp [alookup] at h
  | cons p rest ih =>
      by_cases hp : p.1 = key
      · rw [alookup, if_pos hp] at h
        obtain ⟨p1, p2⟩ := p
        simp only at hp h ⊢
        obtain rfl : p2 = v := by injection h
        rw [← hp]
        exact List.mem_cons_self _ _
      · rw [alookup, if_neg hp] at h
        exact List.mem_cons_of_mem p (ih h)

lemma mem_alookup {α : Type} {key : String} {v : α} {l : List (String × α)}
    (hnd : (l.map Prod.fst).Nodup) (h : (key, v) ∈ l) : alookup key l = some v := by
  induction l with
  | nil => simp at h
  | cons p rest ih =>
      simp only [List.map_cons, List.nodup_cons] at hnd
      rcases List.mem_cons.mp h with rfl | hmem
      · rw [alookup, if_pos rfl]
      · have hp : p.1 ≠ key := by
          intro hk
          exact hnd.1 (hk ▸ (List.mem_map.mpr ⟨(key, v), hmem, rfl⟩))
        rw [alookup, if_neg hp]
        exact ih hnd.2 hmem

lemma alookup_append {α : Type} (key : String) (l₁ l₂ : List (String × α)) :
    alookup key (l₁ ++ l₂) =
      match alookup key l₁ with
      | some v => some v
      | none => alookup key l₂ := by
  induction l₁ with
  | nil => simp [alookup]
  | cons p rest ih =>
      by_cases hp : p.1 = key
      · simp [alookup, hp]
      · simp [alookup, hp, ih]

lemma aupdate_map_fst {α : Type} (key : String) (f : α → α) (l : List (String × α)) :
    (aupdate key f l).map Prod.fst = l.map Prod.fst := by
  induction l with
  | nil => simp [aupdate]
  | cons p rest ih =>
      by_cases hp : p.1 = key
      · simp [aupdate, hp]
      · simp [aupdate, hp, ih]

lemma alookup_aupdate_self {α : Type} (key : String) (f : α → α) (l : List (String × α)) :
    alookup key (aupdate key f l) = (alookup key l).map f := by
  induction l with
  | nil => simp [alookup, aupdate]
  | cons p rest ih =>
      by_cases hp : p.1 = key
      · simp [alookup, aupdate, hp]
      · simp [alookup, aupdate, hp, ih]

lemma alookup_aupdate_ne {α : Type} {key' key : String} (h : key' ≠ key) (f : α → α)
    (l : List (String × α)) : alookup key' (aupdate key f l) = alookup key' l := by
  induction l with
  | nil => simp [aupdate]
  | cons p rest ih =>
      by_cases hp : p.1 = key
      · rw [aupdate, if_pos hp, alookup, alookup]
        have : ¬ p.1 = key' := by
          rw [hp]
          exact fun hk => h hk.symm
        rw [if_neg this, if_neg this]
      · rw [aupdate, if_neg hp, alookup, alookup]
        by_cases hp' : p.1 = key'
        · rw [if_pos hp', if_pos hp']
        · rw [if_neg hp', if_neg hp', ih]

lemma countP_key_eq_zero {α : Type} {l : List (String × α)} {key : String}
    (h : ∀ p ∈ l, p.1 ≠ key) : l.countP (fun p => decide (p.1 = key)) = 0 := by
  induction l with
  | nil => simp
  | cons p rest ih =>
      rw [List.countP_cons]
      have h1 : p.1 ≠ key := h p (List.mem_cons_self p rest)
      have h2 := ih (fun q hq => h q (List.mem_cons_of_mem p hq))
      simp [h1, h2]

lemma countP_key_eq_one {α : Type} {l : List (String × α)} {key : String} {v : α}
    (hnd : (l.map Prod.fst).Nodup) (hk : alookup key l = some v) :
    l.countP (fun p => decide (p.1 = key)) = 1 := by
  induction l with
  | nil => simp [alookup] at hk
  | cons p rest ih =>
      simp only [List.map_cons, List.nodup_cons] at hnd
      rw [List.countP_cons]
      by_cases hp : p.1 = key
      · have hrest : ∀ q ∈ rest, q.1 ≠ key := by
          intro q hq hqk
          exact hnd.1 (hp ▸ hqk ▸ (List.mem_map.mpr ⟨q, hq, rfl⟩))
        rw [countP_key_eq_zero hrest]
        simp [hp]
      · rw [alookup, if_neg hp] at hk
        have h2 := ih hnd.2 hk
        simp [hp, h2]

lemma mem_map_fst_filter_iff (cond : String × DebugEntry → Bool) {t : DebugTexts}
    {p : String × DebugEntry} (hnd : (t.entries.map Prod.fst).Nodup)
    (hp : p ∈ t.entries) :
    (p.1 ∈ (t.entries.filter cond).map Prod.fst) ↔ cond p = true := by
  constructor
  · intro hmem
    obtain ⟨q, hq, hq1⟩ := List.mem_map.mp hmem
    obtain ⟨hqmem, hqcond⟩ := List.mem_filter.mp hq
    have : q = p := List.inj_on_of_nodup_map hnd hqmem hp hq1
    rwa [this] at hqcond
  · intro hcond
    exact List.mem_map.mpr ⟨p, List.mem_filter.mpr ⟨hp, hcond⟩, rfl⟩

lemma mem_cleanup_entries {t : DebugTexts} {p : String × DebugEntry}
    (hnd : (t.entries.map Prod.fst).Nodup) (hp : p ∈ t.entries) :
    p ∈ (cleanup_stale_debug_texts t).1.entries ↔
      ¬(p.2.persistent = false ∧
        (p.2.last_frame + 1) % U64_MOD < (t.frame + 1) % U64_MOD) := by
  simp only [cleanup_stale_debug_texts]
  rw [List.mem_filter]
  have hiff := mem_map_fst_filter_iff
    (fun q => !q.2.persistent &&
      decide ((q.2.last_frame + 1) % U64_MOD < (t.frame + 1) % U64_MOD)) hnd hp
  constructor
  · rintro ⟨-, hbool⟩
    rintro ⟨hpers, hlt⟩
    rw [Bool.not_eq_true', decide_eq_false_iff_not] at hbool
    exact hbool (hiff.mpr (by simp [hpers, hlt]))
  · intro hnot
    refine ⟨hp, ?_⟩
    rw [Bool.not_eq_true', decide_eq_false_iff_not]
    intro hmem
    have hcond := hiff.mp hmem
    simp only [Bool.and_eq_true, Bool.not_eq_true', decide_eq_true_eq] at hcond
    exact hnot hcond

/-- C2: the per-frame cleanup advances the frame counter by one (the wrapping
increment does not wrap while the counter stays below `2 ^ 64 - 1`) and then
removes — despawning their visual entities — exactly the non-persistent
entries whose last-touched frame is more than one frame behind the new
counter: a persistent entry always survives, an ephemeral entry touched on
the current or previous frame (at most one missed frame) survives, and an
ephemeral entry two or more frames stale is removed. -/
theorem c2_cleanup_eviction (t : DebugTexts)
    (hnd : (t.entries.map Prod.fst).Nodup)
    (hframe : t.frame + 1 < U64_MOD)
    (hlast : ∀ p ∈ t.entries, p.2.last_frame ≤ t.frame) :
    (cleanup_stale_debug_texts t).1.frame = t.frame + 1 ∧
    (∀ p ∈ t.entries,
      (p ∈ (cleanup_stale_debug_texts t).1.entries ↔
        (p.2.persistent = true ∨ t.frame ≤ p.2.last_frame))) ∧
    (∀ p ∈ t.entries, p.2.persistent = true →
      p ∈ (cleanup_stale_debug_texts t).1.entries) ∧
    (∀ p ∈ t.entries, t.frame ≤ p.2.last_frame →
      p ∈ (cleanup_stale_debug_texts t).1.entries) ∧
    (∀ p ∈ t.entries, p.2.persistent = false → p.2.last_frame + 2 ≤ t.frame + 1 →
      p ∉ (cleanup_stale_debug_texts t).1.entries) ∧
    (cleanup_stale_debug_texts t).2
      = (t.entries.filter
          (fun p => !p.2.persistent && decide (p.2.last_frame < t.frame))).map
        (fun p => p.2.entity) := by
  have hF : (t.frame + 1) % U64_MOD = t.frame + 1 := Nat.mod_eq_of_lt hframe
  have hmem : ∀ p ∈ t.entries,
      (p ∈ (cleanup_stale_debug_texts t).1.entries ↔
        (p.2.persistent = true ∨ t.frame ≤ p.2.last_frame)) := by
    intro p hp
    have hm : (p.2.last_frame + 1) % U64_MOD = p.2.last_frame + 1 :=
      Nat.mod_eq_of_lt (by have := hlast p hp; omega)
    rw [mem_cleanup_entries hnd hp, hm, hF]
    constructor
    · intro hnot
      by_cases hpers : p.2.persistent = true
      · exact Or.inl hpers
      · refine Or.inr ?_
        have : ¬ (p.2.last_frame + 1 < t.frame + 1) := by
          intro hlt
          exact hnot ⟨Bool.not_eq_true _ ▸ (by simpa using hpers), hlt⟩
        omega
    · rintro (hpers | hfresh)
      · rintro ⟨hfalse, -⟩
        rw [hpers] at hfalse
        cases hfalse
      · rintro ⟨-, hlt⟩
        omega
  refine ⟨by simp [cleanup_stale_debug_texts, hF], hmem, ?_, ?_, ?_, ?_⟩
  · intro p hp hpers
    exact (hmem p hp).mpr (Or.inl hpers)
  · intro p hp hfresh
    exact (hmem p hp).mpr (Or.inr hfresh)
  · intro p hp hpers hstale hmem'
    rcases (hmem p hp).mp hmem' with h | h
    · rw [hpers] at h
      cases h
    · omega
  · simp only [cleanup_stale_debug_texts]
    have hfc : ∀ p ∈ t.entries,
        (!p.2.persistent &&
          decide ((p.2.last_frame + 1) % U64_MOD < (t.frame + 1) % U64_MOD))
          = (!p.2.persistent && decide (p.2.last_frame < t.frame)) := by
      intro p hp
      have hm : (p.2.last_frame + 1) % U64_MOD = p.2.last_frame + 1 :=
        Nat.mod_eq_of_lt (by have := hlast p hp; omega)
      rw [hm, hF]
      congr 1
      exact decide_eq_decide.mpr (by omega)
    rw [List.filter_congr hfc]

/-- Concrete instantiation of `c2_cleanup_eviction`: a registry at frame 5
holding a stale ephemeral entry, a fresh ephemeral entry and a stale
persistent entry. -/
theorem c2_cleanup_eviction_witness :
    (((⟨5, 3, [("a", 0), ("b", 1), ("c", 2)],
        [("a", ⟨10, 0, 3, false, "xa", true⟩),
         ("b", ⟨11, 1, 5, false, "xb", true⟩),
         ("c", ⟨12, 2, 1, true, "xc", true⟩)]⟩ : DebugTexts).entries.map Prod.fst).Nodup ∧
      (5 : Nat) + 1 < U64_MOD ∧
      (∀ p ∈ (⟨5, 3, [("a", 0), ("b", 1), ("c", 2)],
        [("a", ⟨10, 0, 3, false, "xa", true⟩),
         ("b", ⟨11, 1, 5, false, "xb", true⟩),
         ("c", ⟨12, 2, 1, true, "xc", true⟩)]⟩ : DebugTexts).entries,
        p.2.last_frame ≤ 5)) ∧
    ((cleanup_stale_debug_texts ⟨5, 3, [("a", 0), ("b", 1), ("c", 2)],
        [("a", ⟨10, 0, 3, false, "xa", true⟩),
         ("b", ⟨11, 1, 5, false, "xb", true⟩),
         ("c", ⟨12, 2, 1, true, "xc", true⟩)]⟩).1.frame = 5 + 1 ∧
      (cleanup_stale_debug_texts ⟨5, 3, [("a", 0), ("b", 1), ("c", 2)],
        [("a", ⟨10, 0, 3, false, "xa", true⟩),
         ("b", ⟨11, 1, 5, false, "xb", true⟩),
         ("c", ⟨12, 2, 1, true, "xc", true⟩)]⟩).1.entries
        = [("b", ⟨11, 1, 5, false, "xb", true⟩),
           ("c", ⟨12, 2, 1, true, "xc", true⟩)] ∧
      (cleanup_stale_debug_texts ⟨5, 3, [("a", 0), ("b", 1), ("c", 2)],
        [("a", ⟨10, 0, 3, false, "xa", true⟩),
         ("b", ⟨11, 1, 5, false, "xb", true⟩),
         ("c", ⟨12, 2, 1, true, "xc", true⟩)]⟩).2 = [10]) := by
  constructor
  · refine ⟨by decide, by decide, by decide⟩
  · have h := c2_cleanup_eviction ⟨5, 3, [("a", 0), ("b", 1), ("c", 2)],
        [("a", ⟨10, 0, 3, false, "xa", true⟩),
         ("b", ⟨11, 1, 5, false, "xb", true⟩),
         ("c", ⟨12, 2, 1, true, "xc", true⟩)]⟩ (by decide) (by decide) (by decide)
    exact ⟨h.1, by decide, by decide⟩

lemma enqueue_all_eq (reqs queue : List DebugRequest) :
    enqueue_all reqs queue = queue ++ reqs := by
  induction reqs generalizing queue with
  | nil => simp [enqueue_all]
  | cons r rs ih =>
      show enqueue_all rs (enqueue_request true queue r) = queue ++ r :: rs
      rw [show enqueue_request true queue r = queue ++ [r] from rfl, ih]
      simp

/-- C3: enqueueing a sequence of requests (each locking successfully) leaves
the queue holding exactly those requests in submission (FIFO) order, and a
single successful drain empties the queue and replays
`write_with_persistence` once per request, in that same order (the left fold
over the drained list). -/
theorem c3_drain_fifo (level : DebugLevel) (reqs : List DebugRequest)
    (st : DebugTexts × Nat) :
    enqueue_all reqs [] = reqs ∧
    drain_debug_queue level (some (enqueue_all reqs [])) true st
      = .ok (reqs.foldl
          (fun s r => write_with_persistence level s r.key r.message r.persistent) st,
        some []) := by
  have he : enqueue_all reqs [] = reqs := by simpa using enqueue_all_eq reqs []
  refine ⟨he, ?_⟩
  rw [he]
  rfl

/-- C5 counterexample: with the queue initialized and the mutex lock failing
(poisoned), `drain_debug_queue` hits the source's `.lock().unwrap()` and
panics (`Except.error ()`), instead of treating the queue as empty for the
frame as the claim requires. -/
theorem c5_lock_failure_counterexample :
    drain_debug_queue DebugLevel.Full (some [⟨"k", "m", false⟩]) false
      (DebugTexts.init, 0) = .error () := rfl

/-- C5 (amended): a failed lock acquisition on enqueue silently drops the
request, and a drain on the never-initialized queue is a no-op; but a drain
whose lock acquisition fails panics through `unwrap` (modelled `Except.error`)
rather than treating the queue as empty. -/
theorem c5_lock_failure_amended (level : DebugLevel) (queue : List DebugRequest)
    (req : DebugRequest) (st : DebugTexts × Nat) :
    enqueue_request false queue req = queue ∧
    drain_debug_queue level none true st = .ok (st, none) ∧
    drain_debug_queue level none false st = .ok (st, none) ∧
    drain_debug_queue level (some queue) false st = .error () := by
  exact ⟨rfl, rfl, rfl, rfl⟩

/-- C6: writing to a key that already has an entry updates that entry in
place — text replaced, last-touched frame set to the current frame,
persistence OR-ed in — while the key order, the slot table, the allocator and
the entity counter (no spawn) are untouched and every other key's entry is
unchanged; consequently writing the same key twice in one frame leaves
exactly one entry for it, holding the later text. -/
theorem c6_write_existing_key (level : DebugLevel) (t : DebugTexts) (n : Nat)
    (key m1 m2 : String) (p1 p2 : Bool) (e : DebugEntry)
    (hnd : (t.entries.map Prod.fst).Nodup)
    (he : alookup key t.entries = some e) :
    (alookup key (write_with_persistence level (t, n) key m1 p1).1.entries
        = some { e with text := m1, last_frame := t.frame,
                        persistent := e.persistent || p1 }) ∧
    ((write_with_persistence level (t, n) key m1 p1).1.entries.map Prod.fst
        = t.entries.map Prod.fst) ∧
    (write_with_persistence level (t, n) key m1 p1).1.line_lookup = t.line_lookup ∧
    (write_with_persistence level (t, n) key m1 p1).1.next_line = t.next_line ∧
    (write_with_persistence level (t, n) key m1 p1).1.frame = t.frame ∧
    (write_with_persistence level (t, n) key m1 p1).2 = n ∧
    (∀ key', key' ≠ key →
      alookup key' (write_with_persistence level (t, n) key m1 p1).1.entries
        = alookup key' t.entries) ∧
    ((write_with_persistence level
        (write_with_persistence level (t, n) key m1 p1) key m2 p2).1.entries.countP
          (fun q => decide (q.1 = key)) = 1 ∧
      alookup key (write_with_persistence level
          (write_with_persistence level (t, n) key m1 p1) key m2 p2).1.entries
        = some { e with text := m2, last_frame := t.frame,
                        persistent := e.persistent || p1 || p2 }) := by
  have hw1 : write_with_persistence level (t, n) key m1 p1
      = ({ t with entries := aupdate key (refreshEntry t.frame m1 p1) t.entries }, n) := by
    simp only [write_with_persistence, he]
  have hl1 : alookup key (write_with_persistence level (t, n) key m1 p1).1.entries
      = some { e with text := m1, last_frame := t.frame,
                      persistent := e.persistent || p1 } := by
    rw [hw1]
    show alookup key (aupdate key (refreshEntry t.frame m1 p1) t.entries) = _
    rw [alookup_aupdate_self, he]
    rfl
  have hmap1 : (write_with_persistence level (t, n) key m1 p1).1.entries.map Prod.fst
      = t.entries.map Prod.fst := by
    rw [hw1]
    exact aupdate_map_fst key _ t.entries
  have hnd1 : ((write_with_persistence level (t, n) key m1 p1).1.entries.map
      Prod.fst).Nodup := by
    rw [hmap1]; exact hnd
  have hfr1 : (write_with_persistence level (t, n) key m1 p1).1.frame = t.frame := by
    rw [hw1]
  have hw2 : write_with_persistence level
      (write_with_persistence level (t, n) key m1 p1) key m2 p2
      = ({ (write_with_persistence level (t, n) key m1 p1).1 with
            entries := aupdate key
              (refreshEntry (write_with_persistence level (t, n) key m1 p1).1.frame m2 p2)
              (write_with_persistence level (t, n) key m1 p1).1.entries },
          (write_with_persistence level (t, n) key m1 p1).2) := by
    have hpair : write_with_persistence level (t, n) key m1 p1
        = ((write_with_persistence level (t, n) key m1 p1).1,
           (write_with_persistence level (t, n) key m1 p1).2) := rfl
    rw [hpair, write_with_persistence]
    simp only [hl1]
  refine ⟨hl1, hmap1, by rw [hw1], by rw [hw1], hfr1, by rw [hw1], ?_, ?_, ?_⟩
  · intro key' hk
    rw [hw1]
    exact alookup_aupdate_ne hk _ t.entries
  · rw [hw2]
    show ((aupdate key _ (write_with_persistence level (t, n) key m1 p1).1.entries).countP _) = 1
    have hl2 : alookup key (aupdate key
        (refreshEntry (write_with_persistence level (t, n) key m1 p1).1.frame m2 p2)
        (write_with_persistence level (t, n) key m1 p1).1.entries) ≠ none := by
      rw [alookup_aupdate_self, hl1]
      simp
    obtain ⟨v, hv⟩ := Option.ne_none_iff_exists'.mp hl2
    refine countP_key_eq_one ?_ hv
    rw [aupdate_map_fst]
    exact hnd1
  · rw [hw2]
    show alookup key (aupdate key _ _) = _
    rw [alookup_aupdate_self, hl1, hfr1]
    rfl

/-- Concrete instantiation of `c6_write_existing_key`: the key `"hp"` already
shows `"100"` and is written twice in the same frame. -/
theorem c6_write_existing_key_witness :
    ((((⟨7, 1, [("hp", 0)], [("hp", ⟨42, 0, 7, false, "100", true⟩)]⟩ :
          DebugTexts).entries.map Prod.fst).Nodup) ∧
      alookup "hp" (⟨7, 1, [("hp", 0)],
          [("hp", ⟨42, 0, 7, false, "100", true⟩)]⟩ : DebugTexts).entries
        = some ⟨42, 0, 7, false, "100", true⟩) ∧
    ((write_with_persistence DebugLevel.Full
        (write_with_persistence DebugLevel.Full
          (⟨7, 1, [("hp", 0)], [("hp", ⟨42, 0, 7, false, "100", true⟩)]⟩, 99)
          "hp" "90" false) "hp" "80" true).1.entries.countP
        (fun q => decide (q.1 = "hp")) = 1 ∧
      alookup "hp" (write_with_persistence DebugLevel.Full
        (write_with_persistence DebugLevel.Full
          (⟨7, 1, [("hp", 0)], [("hp", ⟨42, 0, 7, false, "100", true⟩)]⟩, 99)
          "hp" "90" false) "hp" "80" true).1.entries
        = some ⟨42, 0, 7, false || false || true, "80", true⟩) := by
  refine ⟨⟨by decide, by decide⟩, ?_⟩
  have h := c6_write_existing_key DebugLevel.Full
    ⟨7, 1, [("hp", 0)], [("hp", ⟨42, 0, 7, false, "100", true⟩)]⟩ 99
    "hp" "90" "80" false true ⟨42, 0, 7, false, "100", true⟩ (by decide) (by decide)
  exact ⟨h.2.2.2.2.2.2.2.1, h.2.2.2.2.2.2.2.2⟩

/-- A registry action of the frame loop: a writer call (from a system or the
drained queue) or the per-frame cleanup. -/
inductive DebugOp
  | write (key message : String) (persistent : Bool)
  | cleanup
deriving DecidableEq

/-- One action on the writer state (the cleanup's despawn log is not part of
the state). -/
def stepOp (level : DebugLevel) (st : DebugTexts × Nat) : DebugOp → DebugTexts × Nat
  | .write key message persistent => write_with_persistence level st key message persistent
  | .cleanup => ((cleanup_stale_debug_texts st.1).1, st.2)

/-- Running a sequence of actions from the startup state. -/
def runOps (level : DebugLevel) (ops : List DebugOp) : DebugTexts × Nat :=
  ops.foldl (stepOp level) (DebugTexts.init, 0)

/-- Slot-table invariant: keys are pairwise distinct, assigned slots are
pairwise distinct, and every assigned slot is below the `next_line`
allocator. -/
def SlotInv (t : DebugTexts) : Prop :=
  (t.line_lookup.map Prod.fst).Nodup ∧
  (t.line_lookup.map Prod.snd).Nodup ∧
  (∀ p ∈ t.line_lookup, p.2 < t.next_line)

lemma slotInv_init : SlotInv DebugTexts.init := by
  refine ⟨by simp [DebugTexts.init], by simp [DebugTexts.init], by simp [DebugTexts.init]⟩

lemma stepOp_line_lookup (level : DebugLevel) (st : DebugTexts × Nat) (op : DebugOp) :
    ∃ l', (stepOp level st op).1.line_lookup = st.1.line_lookup ++ l' ∧
      st.1.next_line ≤ (stepOp level st op).1.next_line := by
  cases op with
  | cleanup => exact ⟨[], by simp [stepOp, cleanup_stale_debug_texts], le_refl _⟩
  | write key message persistent =>
      cases halt : alookup key st.1.entries with
      | some e =>
          refine ⟨[], ?_, ?_⟩ <;> simp [stepOp, write_with_persistence, halt]
      | none =>
          cases hll : alookup key st.1.line_lookup with
          | some line =>
              refine ⟨[], ?_, ?_⟩ <;> simp [stepOp, write_with_persistence, halt, hll]
          | none =>
              refine ⟨[(key, st.1.next_line)], ?_, ?_⟩ <;>
                simp [stepOp, write_with_persistence, halt, hll]

lemma slotInv_step (level : DebugLevel) (st : DebugTexts × Nat) (op : DebugOp)
    (h : SlotInv st.1) : SlotInv (stepOp level st op).1 := by
  obtain ⟨h1, h2, h3⟩ := h
  cases op with
  | cleanup => exact ⟨by simpa [stepOp, cleanup_stale_debug_texts] using h1,
      by simpa [stepOp, cleanup_stale_debug_texts] using h2,
      by simpa [stepOp, cleanup_stale_debug_texts] using h3⟩
  | write key message persistent =>
      cases halt : alookup key st.1.entries with
      | some e =>
          refine ⟨?_, ?_, ?_⟩ <;> simp only [stepOp, write_with_persistence, halt] <;>
            first
              | exact h1
              | exact h2
              | exact h3
      | none =>
          cases hll : alookup key st.1.line_lookup with
          | some line =>
              refine ⟨?_, ?_, ?_⟩ <;>
                simp only [stepOp, write_with_persistence, halt, hll] <;>
                first
                  | exact h1
                  | exact h2
                  | exact h3
          | none =>
              have hkey : ∀ p ∈ st.1.line_lookup, p.1 ≠ key := alookup_eq_none.mp hll
              refine ⟨?_, ?_, ?_⟩ <;> simp only [stepOp, write_with_persistence, halt, hll]
              · rw [List.map_append]
                simp only [List.map_cons, List.map_nil]
                rw [List.nodup_append]
                refine ⟨h1, List.nodup_singleton _, ?_⟩
                intro a ha hb
                simp only [List.mem_singleton] at hb
                obtain ⟨q, hq, hq1⟩ := List.mem_map.mp ha
                exact hkey q hq (hq1.trans hb)
              · rw [List.map_append]
                simp only [List.map_cons, List.map_nil]
                rw [List.nodup_append]
                refine ⟨h2, List.nodup_singleton _, ?_⟩
                intro a ha hb
                simp only [List.mem_singleton] at hb
                obtain ⟨q, hq, hq1⟩ := List.mem_map.mp ha
                have := h3 q hq
                omega
              · intro p hp
                rcases List.mem_append.mp hp with hp | hp
                · have := h3 p hp
                  omega
                · simp only [List.mem_singleton] at hp
                  rw [hp]
                  omega

lemma foldl_stepOp_inv (level : DebugLevel) (ops : List DebugOp) (st : DebugTexts × Nat)
    (h : SlotInv st.1) : SlotInv (ops.foldl (stepOp level) st).1 := by
  induction ops generalizing st with
  | nil => exact h
  | cons op rest ih => exact ih _ (slotInv_step level st op h)

lemma foldl_stepOp_extend (level : DebugLevel) (ops : List DebugOp)
    (st : DebugTexts × Nat) :
    ∃ l', (ops.foldl (stepOp level) st).1.line_lookup = st.1.line_lookup ++ l' ∧
      st.1.next_line ≤ (ops.foldl (stepOp level) st).1.next_line := by
  induction ops generalizing st with
  | nil => exact ⟨[], by simp, le_refl _⟩
  | cons op rest ih =>
      obtain ⟨l1, hl1, hn1⟩ := stepOp_line_lookup level st op
      obtain ⟨l2, hl2, hn2⟩ := ih (stepOp level st op)
      exact ⟨l1 ++ l2, by rw [List.foldl_cons, hl2, hl1, List.append_assoc],
        le_trans hn1 (by simpa using hn2)⟩

lemma runOps_slotInv (level : DebugLevel) (ops : List DebugOp) :
    SlotInv (runOps level ops).1 :=
  foldl_stepOp_inv level ops (DebugTexts.init, 0) slotInv_init

lemma slotInv_inj {t : DebugTexts} (h : SlotInv t) :
    ∀ q ∈ t.line_lookup, ∀ r ∈ t.line_lookup, q.1 ≠ r.1 → q.2 ≠ r.2 := by
  intro q hq r hr hne heq
  exact hne (congrArg Prod.fst (List.inj_on_of_nodup_map h.2.1 hq hr heq))

/-- C7: over any run of writes and cleanups, slots assigned to distinct keys
are pairwise distinct and lie below the monotonically increasing `next_line`
allocator; a slot binding, once made, survives any further run (so a slot is
never reused for a different key); and a key whose entry was evicted is
reassigned exactly the slot recorded for it earlier when written again. -/
theorem c7_slot_allocation (level : DebugLevel) (ops more : List DebugOp)
    (key m : String) (p : Bool) (line : Nat)
    (hline : alookup key (runOps level ops).1.line_lookup = some line)
    (hgone : alookup key (runOps level ops).1.entries = none) :
    (∀ q ∈ (runOps level ops).1.line_lookup, ∀ r ∈ (runOps level ops).1.line_lookup,
      q.1 ≠ r.1 → q.2 ≠ r.2) ∧
    (∀ q ∈ (runOps level ops).1.line_lookup, q.2 < (runOps level ops).1.next_line) ∧
    (runOps level ops).1.next_line ≤ (runOps level (ops ++ more)).1.next_line ∧
    (∀ q ∈ (runOps level ops).1.line_lookup,
      q ∈ (runOps level (ops ++ more)).1.line_lookup) ∧
    (∀ q ∈ (runOps level (ops ++ more)).1.line_lookup,
      ∀ r ∈ (runOps level (ops ++ more)).1.line_lookup, q.1 ≠ r.1 → q.2 ≠ r.2) ∧
    (alookup key (write_with_persistence level (runOps level ops) key m p).1.entries).map
        (fun e => e.line) = some line := by
  have hinv := runOps_slotInv level ops
  have hinv' := runOps_slotInv level (ops ++ more)
  have hext : runOps level (ops ++ more) = more.foldl (stepOp level) (runOps level ops) := by
    rw [runOps, List.foldl_append]
    rfl
  obtain ⟨l', hl', hn'⟩ := foldl_stepOp_extend level more (runOps level ops)
  refine ⟨slotInv_inj hinv, hinv.2.2, ?_, ?_, slotInv_inj hinv', ?_⟩
  · rw [hext]
    exact hn'
  · intro q hq
    rw [hext, hl']
    exact List.mem_append_left _ hq
  · have hpair : runOps level ops
        = ((runOps level ops).1, (runOps level ops).2) := rfl
    rw [hpair, write_with_persistence]
    simp only [hgone, hline]
    rw [alookup_append]
    simp [hgone, alookup]

/-- Concrete instantiation of `c7_slot_allocation`: key `"a"` is written,
evicted by two cleanups, and rewritten; `"b"` is written afterwards. -/
theorem c7_slot_allocation_witness :
    (alookup "a" (runOps DebugLevel.Full
        [DebugOp.write "a" "x" false, DebugOp.cleanup, DebugOp.cleanup]).1.line_lookup
      = some 0 ∧
     alookup "a" (runOps DebugLevel.Full
        [DebugOp.write "a" "x" false, DebugOp.cleanup, DebugOp.cleanup]).1.entries
      = none) ∧
    ((runOps DebugLevel.Full
        [DebugOp.write "a" "x" false, DebugOp.cleanup, DebugOp.cleanup]).1.next_line
      ≤ (runOps DebugLevel.Full
        ([DebugOp.write "a" "x" false, DebugOp.cleanup, DebugOp.cleanup]
          ++ [DebugOp.write "b" "y" false])).1.next_line ∧
     (alookup "a" (write_with_persistence DebugLevel.Full
        (runOps DebugLevel.Full
          [DebugOp.write "a" "x" false, DebugOp.cleanup, DebugOp.cleanup])
        "a" "z" false).1.entries).map (fun e => e.line) = some 0) := by
  refine ⟨⟨by decide, by decide⟩, ?_, ?_⟩
  · exact (c7_slot_allocation DebugLevel.Full
      [DebugOp.write "a" "x" false, DebugOp.cleanup, DebugOp.cleanup]
      [DebugOp.write "b" "y" false] "a" "z" false 0 (by decide) (by decide)).2.2.1
  · exact (c7_slot_allocation DebugLevel.Full
      [DebugOp.write "a" "x" false, DebugOp.cleanup, DebugOp.cleanup]
      [DebugOp.write "b" "y" false] "a" "z" false 0 (by decide) (by decide)).2.2.2.2.2

/-- Rust's `f64::clamp(lo, hi)`: below the range gives `lo`, above gives
`hi`. -/
def rust_clamp (x lo hi : ℚ) : ℚ :=
  if x < lo then lo else if hi < x then hi else x

/-- The per-bar color formula of `draw_frametime_barchart`: an average frame
time is 20 % red, twice the average or worse is 100 % red. -/
def bar_color_ratio (frame_time avg_ms : ℚ) : ℚ :=
  if avg_ms < frame_time then 0.2 + rust_clamp (frame_time / avg_ms - 1) 0 1 * 0.8
  else frame_time / avg_ms * 0.2

/-- One rendered bar: the two world-space endpoints handed to `gizmos.line`
and the srgb color channels. -/
structure BarSegment where
  base_pos : ℚ × ℚ × ℚ
  top_pos : ℚ × ℚ × ℚ
  color : ℚ × ℚ × ℚ
deriving DecidableEq

/-- The loop body of `draw_frametime_barchart` for one `(idx, frame_time)`
pair of the enumerated window: screen positions `base` and `top` of the bar
at chart origin `(8, 120)` with max height 50, projected to world space
(`viewport_to_world` composed with `Ray3d::get_point(depth)`, abstracted as
`proj`); a failed projection skips the bar. -/
def bar_segment (avg_ms max_ms bar_width : ℚ) (proj : ℚ × ℚ → Option (ℚ × ℚ × ℚ))
    (pair : Nat × ℚ) : Option BarSegment :=
  let color_ratio := bar_color_ratio pair.2 avg_ms
  let ratio := rust_clamp (pair.2 / max_ms) 0 1
  let height := 50 * ratio
  let x := 8 + (pair.1 : ℚ) * bar_width
  match proj (x, 120), proj (x, 120 - height) with
  | some base_pos, some top_pos =>
      some ⟨base_pos, top_pos, (color_ratio, 1 - color_ratio, 0)⟩
  | _, _ => none

/-- `draw_frametime_barchart`: early return (no segments) unless the level is
`Full` and a camera exists; otherwise one bar per sample of the last
`FRAME_DELTA_WINDOW` samples, drawn left to right.  The window statistics
(`f64::max` fold, running-sum average, per-bar width) are computed exactly as
in the source, with no emptiness guard (`ℚ` division is total where the
`f64` source would produce `NaN`/`∞` on an empty window). -/
def draw_frametime_barchart (level : DebugLevel) (camera_ok : Bool)
    (proj : ℚ × ℚ → Option (ℚ × ℚ × ℚ)) (h : FrameTimeHistory) : List BarSegment :=
  if level ≠ DebugLevel.Full then []
  else if !camera_ok then []
  else
    let max_ms := h.frame_times_ms.foldl max 0
    let avg_ms := h.sum_seconds * 1000 / (h.frame_times_ms.length : ℚ)
    let bar_width : ℚ := 300 / (h.frame_times_ms.length : ℚ)
    let start_index := h.frame_times_ms.length - FRAME_DELTA_WINDOW
    ((h.frame_times_ms.drop start_index).enum).filterMap
      (bar_segment avg_ms max_ms bar_width proj)

lemma rust_clamp_unit_mem (x : ℚ) : 0 ≤ rust_clamp x 0 1 ∧ rust_clamp x 0 1 ≤ 1 := by
  unfold rust_clamp
  split_ifs with h1 h2
  · exact ⟨le_refl 0, by norm_num⟩
  · exact ⟨by norm_num, le_refl 1⟩
  · exact ⟨le_of_not_lt h1, le_of_not_lt h2⟩

lemma bar_segment_some {avg_ms max_ms bar_width : ℚ}
    {proj : ℚ × ℚ → Option (ℚ × ℚ × ℚ)} {pair : Nat × ℚ} {seg : BarSegment}
    (h : bar_segment avg_ms max_ms bar_width proj pair = some seg) :
    proj (8 + (pair.1 : ℚ) * bar_width, 120) = some seg.base_pos ∧
    proj (8 + (pair.1 : ℚ) * bar_width,
        120 - 50 * rust_clamp (pair.2 / max_ms) 0 1) = some seg.top_pos ∧
    seg.color = (bar_color_ratio pair.2 avg_ms, 1 - bar_color_ratio pair.2 avg_ms, 0) := by
  rcases hb : proj (8 + (pair.1 : ℚ) * bar_width, 120) with _ | base_pos <;>
    rcases ht : proj (8 + (pair.1 : ℚ) * bar_width,
      120 - 50 * rust_clamp (pair.2 / max_ms) 0 1) with _ | top_pos <;>
    simp only [bar_segment, hb, ht] at h <;> try cases h
  exact ⟨rfl, rfl, rfl⟩

/-- C9: a bar's red fraction is `sample / average * 0.2` for a sample at or
below the window average and `0.2 + clamp(sample / average - 1, 0, 1) * 0.8`
— a value in `[0.2, 1]` — above it, with green set to one minus red (blue 0);
and every segment the chart emits carries exactly that color for its sample
while its screen-space top sits `50 * clamp(sample / max, 0, 1)` pixels above
the chart base line. -/
theorem c9_bar_color_formula (ft avg : ℚ) (h : FrameTimeHistory)
    (proj : ℚ × ℚ → Option (ℚ × ℚ × ℚ)) :
    (ft ≤ avg → bar_color_ratio ft avg = ft / avg * 0.2) ∧
    (avg < ft →
      bar_color_ratio ft avg = 0.2 + rust_clamp (ft / avg - 1) 0 1 * 0.8 ∧
      0.2 ≤ bar_color_ratio ft avg ∧ bar_color_ratio ft avg ≤ 1) ∧
    (∀ seg ∈ draw_frametime_barchart DebugLevel.Full true proj h,
      ∃ (idx : Nat) (ft' : ℚ),
        (h.frame_times_ms.drop (h.frame_times_ms.length - FRAME_DELTA_WINDOW))[idx]?
          = some ft' ∧
        proj (8 + (idx : ℚ) * (300 / (h.frame_times_ms.length : ℚ)), 120)
          = some seg.base_pos ∧
        proj (8 + (idx : ℚ) * (300 / (h.frame_times_ms.length : ℚ)),
            120 - 50 * rust_clamp (ft' / h.frame_times_ms.foldl max 0) 0 1)
          = some seg.top_pos ∧
        seg.color
          = (bar_color_ratio ft'
                (h.sum_seconds * 1000 / (h.frame_times_ms.length : ℚ)),
             1 - bar_color_ratio ft'
                (h.sum_seconds * 1000 / (h.frame_times_ms.length : ℚ)), 0)) := by
  refine ⟨?_, ?_, ?_⟩
  · intro hle
    rw [bar_color_ratio, if_neg (not_lt.mpr hle)]
  · intro hlt
    rw [bar_color_ratio, if_pos hlt]
    obtain ⟨hc0, hc1⟩ := rust_clamp_unit_mem (ft / avg - 1)
    refine ⟨rfl, by nlinarith, by nlinarith⟩
  · intro seg hseg
    have hred : draw_frametime_barchart DebugLevel.Full true proj h
        = ((h.frame_times_ms.drop
              (h.frame_times_ms.length - FRAME_DELTA_WINDOW)).enum).filterMap
            (bar_segment (h.sum_seconds * 1000 / (h.frame_times_ms.length : ℚ))
              (h.frame_times_ms.foldl max 0)
              (300 / (h.frame_times_ms.length : ℚ)) proj) := rfl
    rw [hred] at hseg
    obtain ⟨pair, hpair, hsome⟩ := List.mem_filterMap.mp hseg
    obtain ⟨idx, ft'⟩ := pair
    refine ⟨idx, ft', List.mk_mem_enum_iff_getElem?.mp hpair, ?_⟩
    exact bar_segment_some hsome

/-- Concrete instantiation of `c9_bar_color_formula` at a one-sample window
with the identity-style projection. -/
theorem c9_bar_color_formula_witness :
    ((16 : ℚ) ≤ 20 ∧ bar_color_ratio 16 20 = 16 / 20 * 0.2) ∧
    ((20 : ℚ) < 50 ∧ bar_color_ratio 50 20 = 0.2 + rust_clamp (50 / 20 - 1) 0 1 * 0.8 ∧
      (0.2 : ℚ) ≤ bar_color_ratio 50 20 ∧ bar_color_ratio 50 20 ≤ 1) := by
  constructor
  · refine ⟨by norm_num, ?_⟩
    exact (c9_bar_color_formula 16 20 ⟨[], 0⟩ (fun _ => none)).1 (by norm_num)
  · refine ⟨by norm_num, ?_⟩
    exact (c9_bar_color_formula 50 20 ⟨[], 0⟩ (fun _ => none)).2.1 (by norm_num)

/-- C10: on an empty frame-time window the bar chart emits no line segment at
all (and, being a total function, completes without failure): the per-bar
loop iterates zero times, so the unguarded `0 / 0` average and `width / 0`
bar width (`NaN` / `∞` in `f64`, harmless total divisions in this model) are
never consumed. -/
theorem c10_barchart_empty_window (level : DebugLevel) (camera_ok : Bool)
    (proj : ℚ × ℚ → Option (ℚ × ℚ × ℚ)) (s : ℚ) :
    draw_frametime_barchart level camera_ok proj ⟨[], s⟩ = [] := by
  cases level <;> cases camera_ok <;>
    simp only [draw_frametime_barchart, List.drop_nil, List.enum_nil,
      List.filterMap_nil, ite_self]

end DebugVis
